import Mathlib

/-!
Shallow embedding of `sqlitestore.go` (package sqlitestore): a key-value
blob store over SQLite.  Keys are arbitrary byte strings, hex-encoded
before use as the BLOB primary key of a per-keyspace table
`(key BLOB primary key, value BLOB not null, vsize INTEGER not null)`.
Values are optionally compressed with Snappy; `vsize` records the
original (pre-compression) length.  Every operation runs inside a
transaction via `withTxValue`/`withTxErr`.

Byte strings are modelled as `List Nat` with a validity predicate
(`each byte < 256`); the SQL table as a list of rows; SQLite BLOB
comparison (`memcmp` order, shorter prefix first) as `ltB`/`leB`.
-/

namespace SqliteStore

/-- A byte string (Go `string` / `[]byte`): a list of byte values. -/
abbrev Bytes := List Nat

/-- Every element is an actual byte (< 256). -/
def ValidBytes (bs : Bytes) : Prop := ∀ b ∈ bs, b < 256

instance : DecidablePred ValidBytes := fun bs =>
  inferInstanceAs (Decidable (∀ b ∈ bs, b < 256))

/-- Byte-lexicographic strict order: Go string `<`, and SQLite BLOB
comparison (memcmp; a proper prefix sorts first). -/
def ltB : Bytes → Bytes → Bool
  | [], [] => false
  | [], _ :: _ => true
  | _ :: _, [] => false
  | a :: as, b :: bs => if a < b then true else if b < a then false else ltB as bs

/-- Byte-lexicographic `≤` (total order: `a ≤ b ↔ ¬ b < a`). -/
def leB (a b : Bytes) : Bool := !(ltB b a)

/-! ### Key codec: `encodeKey` / `decodeKey` (encoding/hex) -/

/-- Lowercase hex digit character for a value `d < 16`
(`'0'..'9'` are 48..57, `'a'..'f'` are 97..102), as written by
`hex.EncodeToString`. -/
def hexDigit (d : Nat) : Nat := if d < 10 then 48 + d else 87 + d

/-- The two hex characters encoding one byte: high nibble then low nibble. -/
def encodeByte (b : Nat) : Bytes := [hexDigit (b / 16), hexDigit (b % 16)]

/-- `encodeKey`: `hex.EncodeToString([]byte(key))`, the concatenation of
the two-character hex codes of the key's bytes. -/
def encodeKey : Bytes → Bytes
  | [] => []
  | b :: bs => encodeByte b ++ encodeKey bs

/-- `fromHexChar` of encoding/hex: value of one hex character, accepting
`0-9`, `a-f` and `A-F`; `none` for any other character. -/
def fromHexChar (c : Nat) : Option Nat :=
  if 48 ≤ c ∧ c ≤ 57 then some (c - 48)
  else if 97 ≤ c ∧ c ≤ 102 then some (c - 97 + 10)
  else if 65 ≤ c ∧ c ≤ 70 then some (c - 65 + 10)
  else none

/-- `decodeKey`: `hex.Decode` pairwise; the Go function panics
(`panic("invalid key")`) when `hex.Decode` reports an error, which it
does exactly on an odd-length input or a non-hex character.  The panic
is modelled as `none`. -/
def decodeKey : Bytes → Option Bytes
  | [] => some []
  | [_] => none
  | a :: b :: rest =>
    match fromHexChar a, fromHexChar b, decodeKey rest with
    | some hi, some lo, some tl => some ((16 * hi + lo) :: tl)
    | _, _, _ => none

/-- A well-formed hex code: even length, every character a hex digit.
`hex.Decode` succeeds exactly on these inputs. -/
def HexWF (e : Bytes) : Prop := e.length % 2 = 0 ∧ ∀ c ∈ e, (fromHexChar c).isSome

instance : DecidablePred HexWF := fun e =>
  inferInstanceAs (Decidable (e.length % 2 = 0 ∧ ∀ c ∈ e, (fromHexChar c).isSome))

/-! ### Value codec: `encodeBlob` / `decodeBlob` -/

/-- Modelled from the spec: the value compressor is the external Snappy
library (`github.com/golang/snappy`), whose source is not part of this
repository; the spec specifies it only at its boundary ("apply a
general-purpose byte compressor on write and the inverse on read,
transparently to callers").  We model a conforming compressed framing:
the uncompressed length as a base-128 varint prefix (as in the Snappy
block format) followed by the payload, with `snappyDecode` its exact
inverse, failing (`none`) on any malformed input. -/
def uvarintFuel : Nat → Nat → Bytes
  | 0, n => [n % 128]
  | fuel + 1, n =>
    if n < 128 then [n] else (n % 128 + 128) :: uvarintFuel fuel (n / 128)

/-- Modelled from the spec: base-128 varint of `n` (low groups first,
high bit marks continuation); the fuel `n` always suffices. -/
def putUvarint (n : Nat) : Bytes := uvarintFuel n n

/-- Modelled from the spec: inverse of `putUvarint`; `none` on truncated
input. -/
def readUvarint : Bytes → Option (Nat × Bytes)
  | [] => none
  | b :: rest =>
    if b < 128 then some (b, rest)
    else
      match readUvarint rest with
      | some (m, r2) => some ((b - 128) + 128 * m, r2)
      | none => none

/-- Modelled from the spec: `snappy.Encode(nil, data)` at its boundary. -/
def snappyEncode (data : Bytes) : Bytes := putUvarint data.length ++ data

/-- Modelled from the spec: `snappy.Decode(nil, data)` at its boundary;
`none` models the decode error for malformed input. -/
def snappyDecode (data : Bytes) : Option Bytes :=
  match readUvarint data with
  | some (n, rest) => if rest.length = n then some rest else none
  | none => none

/-- The store's error taxonomy as visible through these operations. -/
inductive Err : Type
  | notFound (key : Bytes)
  | keyExists (key : Bytes)
  | corruptValue
deriving DecidableEq

instance {ε α : Type} [DecidableEq ε] [DecidableEq α] : DecidableEq (Except ε α) :=
  fun x y =>
    match x, y with
    | .ok a, .ok b =>
      if h : a = b then isTrue (by rw [h]) else isFalse (fun hh => h (Except.ok.inj hh))
    | .error e, .error f =>
      if h : e = f then isTrue (by rw [h]) else isFalse (fun hh => h (Except.error.inj hh))
    | .ok _, .error _ => isFalse (fun hh => Except.noConfusion hh)
    | .error _, .ok _ => isFalse (fun hh => Except.noConfusion hh)

/-- `KV.encodeBlob`: compress with Snappy when the store is configured
compressed, otherwise pass the bytes through. -/
def encodeBlob (compress : Bool) (data : Bytes) : Bytes :=
  if compress then snappyEncode data else data

/-- `KV.decodeBlob`: invert `encodeBlob`; a Snappy decode failure is an
error, the uncompressed path never fails. -/
def decodeBlob (compress : Bool) (data : Bytes) : Except Err Bytes :=
  if compress then
    match snappyDecode data with
    | some d => .ok d
    | none => .error .corruptValue
  else .ok data

/-! ### The keyspace table -/

/-- One row of a keyspace table:
`(key BLOB primary key, value BLOB not null, vsize INTEGER not null)`.
`key` holds the hex-encoded key. -/
structure Row : Type where
  key : Bytes
  value : Bytes
  vsize : Nat
deriving DecidableEq

/-- A keyspace table: its rows (the primary key keeps `key` unique in
every state the engine produces). -/
abbrev Table := List Row

/-- Row lookup by encoded key (`select ... where key = $key`). -/
def findRow (t : Table) (ek : Bytes) : Option Row := t.find? (fun r => r.key == ek)

/-! ### Transaction helpers: `withTxValue` / `withTxErr`

The unit of work `f` receives the current state and returns its result
together with the transaction's working state.  On error the deferred
`tx.Rollback()` discards the working state and the database keeps its
prior state; on success `tx.Commit()` installs it. -/

/-- `withTxValue`: begin, run `f`, roll back on error (the database
keeps its prior state), commit on success. -/
def withTxValue {α : Type} (db : Table) (f : Table → Except Err α × Table) :
    Except Err α × Table :=
  match f db with
  | (.error e, _) => (.error e, db)
  | (.ok v, work) => (.ok v, work)

/-- `withTxErr`: begin, run `f`, roll back on error, commit on success. -/
def withTxErr (db : Table) (f : Table → Option Err × Table) : Option Err × Table :=
  match f db with
  | (some e, _) => (some e, db)
  | (none, work) => (none, work)

namespace KV

/-- Body of `KV.Get` inside its transaction: select the value by encoded
key; no row is `blob.KeyNotFound`; otherwise decode the blob. -/
def getTx (compress : Bool) (key : Bytes) (w : Table) : Except Err Bytes × Table :=
  (match findRow w (encodeKey key) with
   | none => .error (.notFound key)
   | some r => decodeBlob compress r.value, w)

/-- `KV.Get`: shared lock, then the select inside `withTxValue`. -/
def Get (compress : Bool) (t : Table) (key : Bytes) : Except Err Bytes :=
  (withTxValue t (getTx compress key)).1

/-- Modelled from the spec: `blob.KeySet` comes from the external ffs
library; the spec uses it only as "the subset present".  `Add` has set
semantics: inserting a member again changes nothing. -/
def keySetAdd (s : List Bytes) (k : Bytes) : List Bytes :=
  if k ∈ s then s else s ++ [k]

/-- Body of `KV.Has` inside its transaction: probe each argument key via
the `vsize` column; a missing row is skipped, a present key is added to
the result set. -/
def hasTx (keys : List Bytes) (w : Table) : List Bytes :=
  keys.foldl
    (fun out k =>
      match findRow w (encodeKey k) with
      | some _ => keySetAdd out k
      | none => out)
    []

/-- `KV.Has`: shared lock, then the probes inside `withTxValue`. -/
def Has (t : Table) (keys : List Bytes) : Except Err (List Bytes) :=
  (withTxValue t (fun w => (.ok (hasTx keys w), w))).1

/-- Body of `KV.Put` inside its transaction.  `replace into` deletes any
conflicting row and inserts; plain `insert` fails with the SQLite unique
constraint (code 1555), mapped to `blob.KeyExists`.  The stored row is
`(encodeKey key, encodeBlob data, len(data))`. -/
def putTx (compress : Bool) (key data : Bytes) (replace : Bool) (w : Table) :
    Option Err × Table :=
  let ek := encodeKey key
  if replace then
    (none, w.filter (fun r => !(r.key == ek)) ++
      [⟨ek, encodeBlob compress data, data.length⟩])
  else
    match findRow w ek with
    | some _ => (some (.keyExists key), w)
    | none => (none, w ++ [⟨ek, encodeBlob compress data, data.length⟩])

/-- `KV.Put`: exclusive lock, then the insert/replace inside `withTxErr`. -/
def Put (compress : Bool) (t : Table) (key data : Bytes) (replace : Bool) :
    Option Err × Table :=
  withTxErr t (putTx compress key data replace)

/-- Body of `KV.Delete` inside its transaction: delete by encoded key;
zero rows affected is `blob.KeyNotFound`. -/
def deleteTx (key : Bytes) (w : Table) : Option Err × Table :=
  let rest := w.filter (fun r => !(r.key == encodeKey key))
  if rest.length = w.length then (some (.notFound key), w) else (none, rest)

/-- `KV.Delete`: exclusive lock, then the delete inside `withTxErr`. -/
def Delete (t : Table) (key : Bytes) : Option Err × Table :=
  withTxErr t (deleteTx key)

/-- `≤` on encoded keys as a proposition, for sorting. -/
def leP (a b : Bytes) : Prop := leB a b = true

instance : DecidableRel leP := fun a b => inferInstanceAs (Decidable (leB a b = true))

/-- The row loop of `KV.List`: `decodeKey` each returned key in order;
a decode panic (malformed stored key) aborts, modelled as `none`. -/
def decodeRows : List Bytes → Option (List Bytes)
  | [] => some []
  | e :: rest =>
    match decodeKey e, decodeRows rest with
    | some k, some ks => some (k :: ks)
    | _, _ => none

/-- `KV.list` (the source method `List`): shared lock;
`select key from t where key >= $start order by key`, i.e. the table's
keys at or after `encodeKey start` in BLOB (byte) order, each decoded
back to its original key. -/
def list (t : Table) (start : Bytes) : Option (List Bytes) :=
  decodeRows
    (List.insertionSort leP
      ((t.map Row.key).filter (fun ek => leB (encodeKey start) ek)))

end KV

/-! ### `Store.Close` -/

/-- The three steps `Store.Close` performs, in order. -/
inductive CloseStep : Type
  | checkpoint
  | vacuum
  | release
deriving DecidableEq

/-- `errors.Join` at the granularity `Close` uses it: the list of the
non-nil errors among the arguments, in order; the empty list is Go's
`nil` result. -/
def joinErrors {α : Type} (es : List (Option α)) : List α := es.filterMap id

/-- `Store.Close`: run the WAL checkpoint, then `vacuum`, then close the
pool — each step unconditionally, capturing its error — and return
`errors.Join(terr, verr, cerr)`.  The engine's outcome of each step is
an input; the model returns the steps executed and the joined error. -/
def close {α : Type} (terr verr cerr : Option α) : List CloseStep × List α :=
  ([CloseStep.checkpoint, CloseStep.vacuum, CloseStep.release],
   joinErrors [terr, verr, cerr])

/-! ### State invariants and reachability -/

/-- Well-formed table: the primary key is unique, and every stored key
is the hex encoding of some byte-string key (only this component writes
keys). -/
def WF (t : Table) : Prop :=
  (t.map Row.key).Nodup ∧ ∀ r ∈ t, ∃ k, ValidBytes k ∧ r.key = encodeKey k

/-- Every row's `vsize` is the length of the original (pre-compression)
value, i.e. the length of `decodeBlob` of the stored blob. -/
def SizeInv (compress : Bool) (t : Table) : Prop :=
  ∀ r ∈ t, ∃ d, decodeBlob compress r.value = Except.ok d ∧ r.vsize = d.length

/-- States reachable from the freshly created (empty) table by any
sequence of `Put` and `Delete` operations, successful or failed. -/
inductive Reachable (compress : Bool) : Table → Prop
  | empty : Reachable compress []
  | putStep {t key data replace res t2} : Reachable compress t →
      KV.Put compress t key data replace = (res, t2) → Reachable compress t2
  | deleteStep {t key res t2} : Reachable compress t →
      KV.Delete t key = (res, t2) → Reachable compress t2

/-! ### Lemmas: hex digits -/

theorem hexDigit_lt_iff : ∀ d1 < 16, ∀ d2 < 16, (hexDigit d1 < hexDigit d2 ↔ d1 < d2) := by
  decide

theorem fromHexChar_hexDigit : ∀ d < 16, fromHexChar (hexDigit d) = some d := by
  decide

theorem ltB_encodeByte (x y : Nat) (hx : x < 256) (hy : y < 256) (u v : Bytes) :
    ltB (encodeByte x ++ u) (encodeByte y ++ v) =
      if x < y then true else if y < x then false else ltB u v := by
  have hx1 : x / 16 < 16 := by omega
  have hx2 : x % 16 < 16 := by omega
  have hy1 : y / 16 < 16 := by omega
  have hy2 : y % 16 < 16 := by omega
  have h1 := hexDigit_lt_iff _ hx1 _ hy1
  have h1r := hexDigit_lt_iff _ hy1 _ hx1
  have h2 := hexDigit_lt_iff _ hx2 _ hy2
  have h2r := hexDigit_lt_iff _ hy2 _ hx2
  simp only [encodeByte, List.cons_append, List.nil_append, ltB]
  rcases Nat.lt_trichotomy (x / 16) (y / 16) with hc | hc | hc
  · rw [if_pos (h1.mpr hc), if_pos (by omega)]
  · have e1 : hexDigit (x / 16) = hexDigit (y / 16) := by rw [hc]
    rw [if_neg (by rw [e1]; exact Nat.lt_irrefl _),
        if_neg (by rw [e1]; exact Nat.lt_irrefl _)]
    rcases Nat.lt_trichotomy (x % 16) (y % 16) with hm | hm | hm
    · rw [if_pos (h2.mpr hm), if_pos (by omega)]
    · have e2 : hexDigit (x % 16) = hexDigit (y % 16) := by rw [hm]
      rw [if_neg (by rw [e2]; exact Nat.lt_irrefl _),
          if_neg (by rw [e2]; exact Nat.lt_irrefl _),
          if_neg (by omega), if_neg (by omega)]
      rfl
    · rw [if_neg (fun hlt => absurd (h2.mp hlt) (by omega)), if_pos (h2r.mpr hm),
          if_neg (by omega), if_pos (by omega)]
  · rw [if_neg (fun hlt => absurd (h1.mp hlt) (by omega)), if_pos (h1r.mpr hc),
        if_neg (by omega), if_pos (by omega)]

/-- Hex key encoding preserves strict byte-lexicographic order. -/
theorem ltB_encodeKey : ∀ a b : Bytes, ValidBytes a → ValidBytes b →
    ltB (encodeKey a) (encodeKey b) = ltB a b
  | [], [] => by intro _ _; rfl
  | [], y :: ys => by
    intro _ _
    simp [encodeKey, encodeByte, ltB]
  | x :: xs, [] => by
    intro _ _
    simp [encodeKey, encodeByte, ltB]
  | x :: xs, y :: ys => by
    intro ha hb
    have hx : x < 256 := ha x (by simp)
    have hy : y < 256 := hb y (by simp)
    rw [encodeKey, encodeKey, ltB_encodeByte x y hx hy,
      ltB_encodeKey xs ys (fun c hc => ha c (List.mem_cons_of_mem _ hc))
        (fun c hc => hb c (List.mem_cons_of_mem _ hc))]
    simp only [ltB]

/-- Hex key encoding preserves byte-lexicographic `≤`. -/
theorem leB_encodeKey (a b : Bytes) (ha : ValidBytes a) (hb : ValidBytes b) :
    leB (encodeKey a) (encodeKey b) = leB a b := by
  unfold leB
  rw [ltB_encodeKey b a hb ha]

/-- Decoding inverts encoding on every byte-string key. -/
theorem decodeKey_encodeKey : ∀ k : Bytes, ValidBytes k → decodeKey (encodeKey k) = some k
  | [] => by intro _; rfl
  | x :: xs => by
    intro hk
    have hx : x < 256 := hk x (by simp)
    have h1 : fromHexChar (hexDigit (x / 16)) = some (x / 16) :=
      fromHexChar_hexDigit _ (by omega)
    have h2 : fromHexChar (hexDigit (x % 16)) = some (x % 16) :=
      fromHexChar_hexDigit _ (by omega)
    have ih := decodeKey_encodeKey xs (fun c hc => hk c (List.mem_cons_of_mem _ hc))
    have e : encodeKey (x :: xs) =
        hexDigit (x / 16) :: hexDigit (x % 16) :: encodeKey xs := by
      simp [encodeKey, encodeByte]
    rw [e]
    simp only [decodeKey, h1, h2, ih]
    have hm : 16 * (x / 16) + x % 16 = x := by omega
    rw [hm]

/-- Key encoding is injective on byte strings. -/
theorem encodeKey_inj (a b : Bytes) (ha : ValidBytes a) (hb : ValidBytes b)
    (h : encodeKey a = encodeKey b) : a = b := by
  have := decodeKey_encodeKey a ha
  rw [h, decodeKey_encodeKey b hb] at this
  exact (Option.some.inj this).symm

/-- A successful `hex.Decode` means the input was well-formed hex;
contrapositive: malformed input makes `decodeKey` panic (`none`). -/
theorem hexWF_of_decodeKey : ∀ e k, decodeKey e = some k → HexWF e
  | [], _ => by intro _; exact ⟨rfl, by simp⟩
  | [a], k => by intro h; simp [decodeKey] at h
  | a :: b :: rest, k => by
    intro h
    simp only [decodeKey] at h
    cases h1 : fromHexChar a with
    | none => rw [h1] at h; cases h
    | some hi =>
      cases h2 : fromHexChar b with
      | none => rw [h1, h2] at h; cases h
      | some lo =>
        cases h3 : decodeKey rest with
        | none => rw [h1, h2, h3] at h; cases h
        | some tl =>
          have ih := hexWF_of_decodeKey rest tl h3
          unfold HexWF
          refine ⟨?_, ?_⟩
          · have := ih.1
            simp only [List.length_cons]
            omega
          · intro c hc
            rcases List.mem_cons.mp hc with rfl | hc2
            · simp [h1]
            · rcases List.mem_cons.mp hc2 with rfl | hc3
              · simp [h2]
              · exact ih.2 c hc3

/-- Malformed (or odd-length) input makes `decodeKey` panic. -/
theorem decodeKey_eq_none_of_not_hexWF (e : Bytes) (h : ¬ HexWF e) :
    decodeKey e = none := by
  cases hd : decodeKey e with
  | none => rfl
  | some k => exact absurd (hexWF_of_decodeKey e k hd) h

/-! ### Lemmas: the byte-lexicographic order -/

theorem ltB_irrefl : ∀ a : Bytes, ltB a a = false
  | [] => rfl
  | x :: xs => by simp [ltB, ltB_irrefl xs]

theorem ltB_asymm : ∀ a b : Bytes, ltB a b = true → ltB b a = false
  | [], [] => by simp [ltB]
  | [], _ :: _ => by simp [ltB]
  | _ :: _, [] => by simp [ltB]
  | x :: xs, y :: ys => by
    intro h
    by_cases hxy : x < y
    · have hyx : ¬ y < x := by omega
      simp [ltB, hxy, hyx]
    · by_cases hyx : y < x
      · simp [ltB, hxy, hyx] at h
      · simp only [ltB, if_neg hxy, if_neg hyx] at h ⊢
        exact ltB_asymm xs ys h

theorem ltB_trans : ∀ a b c : Bytes, ltB a b = true → ltB b c = true → ltB a c = true
  | [], b, [] => by
    intro hab hbc
    cases b with
    | nil => simp [ltB] at hab
    | cons y ys => simp [ltB] at hbc
  | [], _, _ :: _ => by intro _ _; simp [ltB]
  | x :: xs, b, c => by
    intro hab hbc
    cases b with
    | nil => simp [ltB] at hab
    | cons y ys =>
      cases c with
      | nil => simp [ltB] at hbc
      | cons z zs =>
        simp only [ltB] at hab hbc ⊢
        by_cases hxy : x < y
        · by_cases hyz : y < z
          · rw [if_pos (by omega)]
          · by_cases hzy : z < y
            · simp [hyz, hzy] at hbc
            · rw [if_pos (by omega)]
        · by_cases hyx : y < x
          · simp [hxy, hyx] at hab
          · have hxy2 : x = y := by omega
            subst hxy2
            simp only [if_neg hxy, if_neg hyx] at hab
            by_cases hyz : x < z
            · rw [if_pos hyz]
            · by_cases hzy : z < x
              · simp [hyz, hzy] at hbc
              · simp only [if_neg hyz, if_neg hzy] at hbc ⊢
                exact ltB_trans xs ys zs hab hbc

theorem ltB_eq_of_not : ∀ a b : Bytes, ltB a b = false → ltB b a = false → a = b
  | [], [] => by intro _ _; rfl
  | [], _ :: _ => by simp [ltB]
  | _ :: _, [] => by intro _ h; simp [ltB] at h
  | x :: xs, y :: ys => by
    intro h1 h2
    simp only [ltB] at h1 h2
    by_cases hxy : x < y
    · simp [hxy] at h1
    · by_cases hyx : y < x
      · simp [hxy, hyx] at h2
      · have hx : x = y := by omega
        subst hx
        simp only [if_neg hxy, if_neg hyx] at h1 h2
        rw [ltB_eq_of_not xs ys h1 h2]

theorem ltB_iff (a b : Bytes) : ltB a b = true ↔ (leB a b = true ∧ a ≠ b) := by
  constructor
  · intro h
    refine ⟨by simp [leB, ltB_asymm a b h], ?_⟩
    rintro rfl
    rw [ltB_irrefl a] at h
    exact Bool.false_ne_true h
  · rintro ⟨hle, hne⟩
    have hba : ltB b a = false := by
      simpa [leB] using hle
    cases h : ltB a b with
    | true => rfl
    | false => exact absurd (ltB_eq_of_not a b h hba) hne

instance : IsTotal Bytes KV.leP :=
  ⟨fun a b => by
    unfold KV.leP leB
    cases h : ltB b a with
    | false => left; rfl
    | true => right; simp [ltB_asymm b a h]⟩

instance : IsTrans Bytes KV.leP :=
  ⟨fun a b c hab hbc => by
    unfold KV.leP leB at hab hbc ⊢
    simp only [Bool.not_eq_true'] at hab hbc ⊢
    cases h : ltB c a with
    | false => rfl
    | true =>
      exfalso
      cases h2 : ltB a b with
      | true => exact absurd (ltB_trans c a b h h2) (by simp [hbc])
      | false =>
        have hab2 : a = b := ltB_eq_of_not a b h2 hab
        rw [hab2] at h
        exact absurd h (by simp [hbc])⟩

/-! ### Lemmas: the value codec -/

theorem readUvarint_uvarintFuel : ∀ (fuel n : Nat) (rest : Bytes), n ≤ fuel →
    readUvarint (uvarintFuel fuel n ++ rest) = some (n, rest)
  | 0, n, rest => by
    intro h
    have h0 : n = 0 := by omega
    subst h0
    simp [uvarintFuel, readUvarint]
  | fuel + 1, n, rest => by
    intro h
    by_cases h1 : n < 128
    · simp [uvarintFuel, h1, readUvarint]
    · have hrec := readUvarint_uvarintFuel fuel (n / 128) rest (by omega)
      simp only [uvarintFuel, if_neg h1, List.cons_append, readUvarint]
      rw [if_neg (by omega), hrec]
      simp only [Option.some.injEq, Prod.mk.injEq, and_true]
      omega

/-- The modelled compressor decodes back to its input. -/
theorem snappy_roundtrip (d : Bytes) : snappyDecode (snappyEncode d) = some d := by
  unfold snappyEncode snappyDecode putUvarint
  rw [readUvarint_uvarintFuel d.length d.length d (le_refl _)]
  simp

/-- `decodeBlob` inverts `encodeBlob` under both compression settings. -/
theorem decodeBlob_encodeBlob (compress : Bool) (d : Bytes) :
    decodeBlob compress (encodeBlob compress d) = Except.ok d := by
  cases compress with
  | false => rfl
  | true => simp [encodeBlob, decodeBlob, snappy_roundtrip]

/-! ### Lemmas: row lookup -/

theorem findRow_filter_out (w : Table) (ek : Bytes) :
    List.find? (fun r => r.key == ek) (w.filter (fun r => !(r.key == ek))) = none := by
  rw [List.find?_eq_none]
  intro r hr
  have := (List.mem_filter.mp hr).2
  simp only [Bool.not_eq_true'] at this
  simp [this]

theorem findRow_append_one (w : Table) (r : Row) (ek : Bytes)
    (h : List.find? (fun x => x.key == ek) w = none) (hk : r.key = ek) :
    findRow (w ++ [r]) ek = some r := by
  unfold findRow
  rw [List.find?_append, h]
  simp [hk]

theorem filter_eq_of_findRow_none (w : Table) (ek : Bytes)
    (h : findRow w ek = none) : w.filter (fun r => !(r.key == ek)) = w := by
  rw [List.filter_eq_self]
  intro r hr
  unfold findRow at h
  rw [List.find?_eq_none] at h
  have := h r hr
  simp only [beq_iff_eq] at this ⊢
  simp [this]

/-- After a successful `Put` of `(k, d)`, the row stored under
`encodeKey k` is `(encodeKey k, encodeBlob d, d.length)`, and `Get k`
decodes it back to `d`. -/
theorem Get_after_Put (compress : Bool) (t t2 : Table) (k d : Bytes) (replace : Bool)
    (h : KV.Put compress t k d replace = (none, t2)) :
    KV.Get compress t2 k = Except.ok d := by
  have hrow : findRow t2 (encodeKey k) =
      some ⟨encodeKey k, encodeBlob compress d, d.length⟩ := by
    cases replace with
    | true =>
      simp only [KV.Put, withTxErr, KV.putTx] at h
      have ht2 : t2 = t.filter (fun r => !(r.key == encodeKey k)) ++
          [⟨encodeKey k, encodeBlob compress d, d.length⟩] := (Prod.mk.inj h).2.symm
      rw [ht2]
      exact findRow_append_one _ _ _ (findRow_filter_out t (encodeKey k)) rfl
    | false =>
      simp only [KV.Put, withTxErr, KV.putTx] at h
      cases hf : findRow t (encodeKey k) with
      | some r0 => rw [hf] at h; cases (Prod.mk.inj h).1
      | none =>
        rw [hf] at h
        have ht2 : t2 = t ++ [⟨encodeKey k, encodeBlob compress d, d.length⟩] :=
          (Prod.mk.inj h).2.symm
        rw [ht2]
        exact findRow_append_one _ _ _ hf rfl
  simp only [KV.Get, withTxValue, KV.getTx, hrow]
  rw [decodeBlob_encodeBlob]

/-! ### Claim theorems -/

/-- C1: in both the compressed and the uncompressed configuration,
`decodeBlob` inverts `encodeBlob` on every byte sequence, and a
successful `Put(k, v)` followed by `Get(k)` returns exactly `v`. -/
theorem C1_put_get_roundtrip :
    (∀ (compress : Bool) (v : Bytes),
      decodeBlob compress (encodeBlob compress v) = Except.ok v) ∧
    (∀ (compress : Bool) (t t2 : Table) (k v : Bytes) (replace : Bool),
      KV.Put compress t k v replace = (none, t2) →
      KV.Get compress t2 k = Except.ok v) :=
  ⟨decodeBlob_encodeBlob,
   fun compress t t2 k v replace h => Get_after_Put compress t t2 k v replace h⟩

/-- C1 witness: concrete put-then-get round trips, compressed and not. -/
theorem C1_put_get_roundtrip_witness :
    KV.Get true (KV.Put true [] [1, 2] [9, 9, 9] false).2 [1, 2] = Except.ok [9, 9, 9] ∧
    KV.Get false (KV.Put false [] [1, 2] [9, 9, 9] true).2 [1, 2] = Except.ok [9, 9, 9] :=
  ⟨C1_put_get_roundtrip.2 true [] _ [1, 2] [9, 9, 9] false (by decide),
   C1_put_get_roundtrip.2 false [] _ [1, 2] [9, 9, 9] true (by decide)⟩

/-- C2: on a key that is already stored (Get returns `v0`),
`Put(k, v, replace=false)` returns AlreadyExists and leaves the state
unchanged, so `Get k` still returns `v0`; `Put(k, v2, replace=true)`
succeeds, and `Get k` then returns `v2`. -/
theorem C2_put_existing (compress : Bool) (t : Table) (k v v2 v0 : Bytes)
    (h0 : KV.Get compress t k = Except.ok v0) :
    KV.Put compress t k v false = (some (Err.keyExists k), t) ∧
    KV.Get compress (KV.Put compress t k v false).2 k = Except.ok v0 ∧
    ∃ t2, KV.Put compress t k v2 true = (none, t2) ∧
      KV.Get compress t2 k = Except.ok v2 := by
  obtain ⟨r0, hr0⟩ : ∃ r0, findRow t (encodeKey k) = some r0 := by
    cases hf : findRow t (encodeKey k) with
    | some r0 => exact ⟨r0, rfl⟩
    | none =>
      simp only [KV.Get, withTxValue, KV.getTx, hf] at h0
      exact Except.noConfusion h0
  have hput : KV.Put compress t k v false = (some (Err.keyExists k), t) := by
    simp [KV.Put, withTxErr, KV.putTx, hr0]
  refine ⟨hput, by rw [hput]; exact h0, ?_⟩
  refine ⟨t.filter (fun r => !(r.key == encodeKey k)) ++
    [⟨encodeKey k, encodeBlob compress v2, v2.length⟩], by rfl, ?_⟩
  exact Get_after_Put compress t _ k v2 true (by rfl)

/-- C2 witness: a concrete two-value scenario on a one-row table. -/
theorem C2_put_existing_witness :
    KV.Put true (KV.Put true [] [7] [1] false).2 [7] [2] false =
      (some (Err.keyExists [7]), (KV.Put true [] [7] [1] false).2) ∧
    KV.Get true (KV.Put true (KV.Put true [] [7] [1] false).2 [7] [2] false).2 [7] =
      Except.ok [1] ∧
    ∃ t2, KV.Put true (KV.Put true [] [7] [1] false).2 [7] [2] true = (none, t2) ∧
      KV.Get true t2 [7] = Except.ok [2] :=
  C2_put_existing true (KV.Put true [] [7] [1] false).2 [7] [2] [2] [1] (by decide)

/-- C3: for a key with no row under its encoded form (never written or
already deleted), `Get` returns NotFound, `Delete` returns NotFound and
changes nothing, and the `Has` size-probe reports the key absent (it is
excluded from the returned set), with no error. -/
theorem C3_notfound_symmetry (compress : Bool) (t : Table) (k : Bytes)
    (h : findRow t (encodeKey k) = none) :
    KV.Get compress t k = Except.error (Err.notFound k) ∧
    KV.Delete t k = (some (Err.notFound k), t) ∧
    KV.Has t [k] = Except.ok [] := by
  refine ⟨?_, ?_, ?_⟩
  · simp [KV.Get, withTxValue, KV.getTx, h]
  · have hfil := filter_eq_of_findRow_none t (encodeKey k) h
    simp [KV.Delete, withTxErr, KV.deleteTx, hfil]
  · simp [KV.Has, withTxValue, KV.hasTx, h]

/-- C3 witness: probing a deleted key on a concrete table. -/
theorem C3_notfound_symmetry_witness :
    KV.Get false (KV.Delete (KV.Put false [] [5] [7] false).2 [5]).2 [5] =
      Except.error (Err.notFound [5]) ∧
    KV.Delete (KV.Delete (KV.Put false [] [5] [7] false).2 [5]).2 [5] =
      (some (Err.notFound [5]), (KV.Delete (KV.Put false [] [5] [7] false).2 [5]).2) ∧
    KV.Has (KV.Delete (KV.Put false [] [5] [7] false).2 [5]).2 [[5]] = Except.ok [] :=
  C3_notfound_symmetry false (KV.Delete (KV.Put false [] [5] [7] false).2 [5]).2 [5]
    (by decide)

/-- C5: the hex key codec preserves byte-lexicographic order, non-strict
and strict, on byte-string keys. -/
theorem C5_encodeKey_order (a b : Bytes) (ha : ValidBytes a) (hb : ValidBytes b) :
    (leB a b = true ↔ leB (encodeKey a) (encodeKey b) = true) ∧
    (ltB a b = true ↔ ltB (encodeKey a) (encodeKey b) = true) := by
  rw [leB_encodeKey a b ha hb, ltB_encodeKey a b ha hb]
  exact ⟨Iff.rfl, Iff.rfl⟩

/-- C5 witness: order preserved on concrete keys. -/
theorem C5_encodeKey_order_witness :
    ltB (encodeKey [0, 255]) (encodeKey [1]) = true :=
  (C5_encodeKey_order [0, 255] [1] (by decide) (by decide)).2.mp (by decide)

/-- C6: a unit of work that fails is rolled back — the database keeps
its prior state, so no later operation can observe its writes — and its
error is propagated unchanged; a unit of work that succeeds is committed
and its result propagated, for both transaction helpers. -/
theorem C6_tx_atomicity {α : Type} (t : Table) (f : Table → Except Err α × Table)
    (g : Table → Option Err × Table) :
    (∀ e w, f t = (Except.error e, w) → withTxValue t f = (Except.error e, t) ∧
      ∀ (β : Type) (op : Table → β), op (withTxValue t f).2 = op t) ∧
    (∀ v w, f t = (Except.ok v, w) → withTxValue t f = (Except.ok v, w)) ∧
    (∀ e w, g t = (some e, w) → withTxErr t g = (some e, t) ∧
      ∀ (β : Type) (op : Table → β), op (withTxErr t g).2 = op t) ∧
    (∀ w, g t = (none, w) → withTxErr t g = (none, w)) := by
  refine ⟨?_, ?_, ?_, ?_⟩
  · intro e w hf
    have h1 : withTxValue t f = (Except.error e, t) := by simp [withTxValue, hf]
    exact ⟨h1, fun β op => by rw [h1]⟩
  · intro v w hf
    simp [withTxValue, hf]
  · intro e w hg
    have h1 : withTxErr t g = (some e, t) := by simp [withTxErr, hg]
    exact ⟨h1, fun β op => by rw [h1]⟩
  · intro w hg
    simp [withTxErr, hg]

/-- C6 witness: a unit of work that writes a row and then fails leaves
the empty database empty. -/
theorem C6_tx_atomicity_witness :
    withTxValue ([] : Table)
        (fun w => (Except.error (α := Bytes) Err.corruptValue, w ++ [⟨[], [], 0⟩])) =
      (Except.error Err.corruptValue, ([] : Table)) :=
  ((C6_tx_atomicity [] (fun w => (Except.error (α := Bytes) Err.corruptValue,
      w ++ [⟨[], [], 0⟩])) (fun w => (none, w))).1 Err.corruptValue [⟨[], [], 0⟩] rfl).1

/-- C8: `Close` executes the checkpoint, vacuum and pool-release steps
unconditionally and in order, and returns the join of all their errors:
empty exactly when all three succeeded, and containing every failure. -/
theorem C8_close_aggregates (α : Type) (terr verr cerr : Option α) :
    (close terr verr cerr).1 =
      [CloseStep.checkpoint, CloseStep.vacuum, CloseStep.release] ∧
    ((close terr verr cerr).2 = [] ↔ (terr = none ∧ verr = none ∧ cerr = none)) ∧
    (∀ e, terr = some e → e ∈ (close terr verr cerr).2) ∧
    (∀ e, verr = some e → e ∈ (close terr verr cerr).2) ∧
    (∀ e, cerr = some e → e ∈ (close terr verr cerr).2) := by
  refine ⟨rfl, ?_, ?_, ?_, ?_⟩ <;>
    cases terr <;> cases verr <;> cases cerr <;> simp [close, joinErrors]

/-- C8 witness: checkpoint and release fail, vacuum succeeds; both
failures are reported. -/
theorem C8_close_aggregates_witness :
    (1 : Nat) ∈ (close (some 1) none (some 3)).2 ∧
    (3 : Nat) ∈ (close (some 1) none (some 3)).2 :=
  ⟨(C8_close_aggregates Nat (some 1) none (some 3)).2.2.1 1 rfl,
   (C8_close_aggregates Nat (some 1) none (some 3)).2.2.2.2 3 rfl⟩

/-- C9: `decodeKey` hits its panic branch (modelled `none`) on every
malformed or odd-length code, and on codes produced by `encodeKey` the
panic branch is unreachable: decoding returns the original key. -/
theorem C9_decodeKey_panic (e k : Bytes) :
    (¬ HexWF e → decodeKey e = none) ∧
    (ValidBytes k → decodeKey (encodeKey k) = some k) :=
  ⟨decodeKey_eq_none_of_not_hexWF e, decodeKey_encodeKey k⟩

/-- C9 witness: an odd-length code panics; a produced code round-trips. -/
theorem C9_decodeKey_panic_witness :
    decodeKey [54, 49, 65] = none ∧ decodeKey (encodeKey [0, 255]) = some [0, 255] :=
  ⟨(C9_decodeKey_panic [54, 49, 65] []).1 (by decide),
   (C9_decodeKey_panic [] [0, 255]).2 (by decide)⟩

/-- A successful or failed `Put` preserves the size invariant. -/
theorem sizeInv_put (compress : Bool) (t t2 : Table) (key data : Bytes)
    (replace : Bool) (res : Option Err)
    (hput : KV.Put compress t key data replace = (res, t2))
    (ih : SizeInv compress t) : SizeInv compress t2 := by
  cases replace with
  | true =>
    have ht2 : t2 = t.filter (fun r => !(r.key == encodeKey key)) ++
        [⟨encodeKey key, encodeBlob compress data, data.length⟩] := by
      simp only [KV.Put, withTxErr, KV.putTx] at hput
      exact (Prod.mk.inj hput).2.symm
    subst ht2
    intro r hr
    rcases List.mem_append.mp hr with h1 | h2
    · exact ih r (List.mem_of_mem_filter h1)
    · have := List.mem_singleton.mp h2
      subst this
      exact ⟨data, decodeBlob_encodeBlob compress data, rfl⟩
  | false =>
    cases hf : findRow t (encodeKey key) with
    | some r0 =>
      have ht2 : t2 = t := by
        simp only [KV.Put, withTxErr, KV.putTx, hf] at hput
        exact (Prod.mk.inj hput).2.symm
      subst ht2
      exact ih
    | none =>
      have ht2 : t2 = t ++ [⟨encodeKey key, encodeBlob compress data, data.length⟩] := by
        simp only [KV.Put, withTxErr, KV.putTx, hf] at hput
        exact (Prod.mk.inj hput).2.symm
      subst ht2
      intro r hr
      rcases List.mem_append.mp hr with h1 | h2
      · exact ih r h1
      · have := List.mem_singleton.mp h2
        subst this
        exact ⟨data, decodeBlob_encodeBlob compress data, rfl⟩

/-- A successful or failed `Delete` preserves the size invariant. -/
theorem sizeInv_delete (compress : Bool) (t t2 : Table) (key : Bytes)
    (res : Option Err) (hdel : KV.Delete t key = (res, t2))
    (ih : SizeInv compress t) : SizeInv compress t2 := by
  by_cases hlen : (t.filter (fun r => !(r.key == encodeKey key))).length = t.length
  · have ht2 : t2 = t := by
      simp only [KV.Delete, withTxErr, KV.deleteTx, if_pos hlen] at hdel
      exact (Prod.mk.inj hdel).2.symm
    subst ht2
    exact ih
  · have ht2 : t2 = t.filter (fun r => !(r.key == encodeKey key)) := by
      simp only [KV.Delete, withTxErr, KV.deleteTx, if_neg hlen] at hdel
      exact (Prod.mk.inj hdel).2.symm
    subst ht2
    intro r hr
    exact ih r (List.mem_of_mem_filter hr)

/-- C7: in every state reachable by Puts and Deletes, every row's
`vsize` equals the byte length of the original (pre-compression) value,
the value `decodeBlob` recovers, under both compression settings. -/
theorem C7_vsize_invariant (compress : Bool) (t : Table)
    (h : Reachable compress t) : SizeInv compress t := by
  induction h with
  | empty => intro r hr; exact absurd hr (List.not_mem_nil r)
  | putStep _ hput ih => exact sizeInv_put _ _ _ _ _ _ _ hput ih
  | deleteStep _ hdel ih => exact sizeInv_delete _ _ _ _ _ hdel ih

/-- C7 witness: the invariant at a concrete reachable compressed state. -/
theorem C7_vsize_invariant_witness : SizeInv true [⟨[48, 51], [2, 1, 2], 2⟩] := by
  have h : KV.Put true [] [3] [1, 2] false = (none, [⟨[48, 51], [2, 1, 2], 2⟩]) := by
    decide
  exact C7_vsize_invariant true _ (Reachable.putStep Reachable.empty h)

/-! ### `Has` set semantics -/

theorem mem_keySetAdd (s : List Bytes) (k0 k : Bytes) :
    k ∈ KV.keySetAdd s k0 ↔ (k ∈ s ∨ k = k0) := by
  unfold KV.keySetAdd
  by_cases h : k0 ∈ s
  · simp only [if_pos h]
    constructor
    · exact Or.inl
    · rintro (hk | rfl)
      · exact hk
      · exact h
  · simp only [if_neg h, List.mem_append, List.mem_singleton]

theorem nodup_keySetAdd (s : List Bytes) (k0 : Bytes) (h : s.Nodup) :
    (KV.keySetAdd s k0).Nodup := by
  unfold KV.keySetAdd
  by_cases hm : k0 ∈ s
  · simp only [if_pos hm]
    exact h
  · simp only [if_neg hm]
    simp [List.nodup_append, h, hm]

theorem hasTx_foldl (w : Table) (keys : List Bytes) : ∀ out : List Bytes, out.Nodup →
    (keys.foldl (fun out k => match findRow w (encodeKey k) with
        | some _ => KV.keySetAdd out k
        | none => out) out).Nodup ∧
    (∀ k, k ∈ keys.foldl (fun out k => match findRow w (encodeKey k) with
        | some _ => KV.keySetAdd out k
        | none => out) out ↔
      (k ∈ out ∨ (k ∈ keys ∧ (findRow w (encodeKey k)).isSome))) := by
  induction keys with
  | nil =>
    intro out h
    exact ⟨h, by simp⟩
  | cons k0 rest ih =>
    intro out hout
    rw [List.foldl_cons]
    cases hf : findRow w (encodeKey k0) with
    | some r =>
      have hstep := ih (KV.keySetAdd out k0) (nodup_keySetAdd _ _ hout)
      refine ⟨hstep.1, fun k => ?_⟩
      rw [hstep.2 k, mem_keySetAdd]
      constructor
      · rintro ((hk | rfl) | ⟨hk, hp⟩)
        · exact Or.inl hk
        · exact Or.inr ⟨List.mem_cons_self _ _, by simp [hf]⟩
        · exact Or.inr ⟨List.mem_cons_of_mem _ hk, hp⟩
      · rintro (hk | ⟨hm, hp⟩)
        · exact Or.inl (Or.inl hk)
        · rcases List.mem_cons.mp hm with rfl | hm2
          · exact Or.inl (Or.inr rfl)
          · exact Or.inr ⟨hm2, hp⟩
    | none =>
      have hstep := ih out hout
      refine ⟨hstep.1, fun k => ?_⟩
      rw [hstep.2 k]
      constructor
      · rintro (hk | ⟨hk, hp⟩)
        · exact Or.inl hk
        · exact Or.inr ⟨List.mem_cons_of_mem _ hk, hp⟩
      · rintro (hk | ⟨hm, hp⟩)
        · exact Or.inl hk
        · rcases List.mem_cons.mp hm with rfl | hm2
          · rw [hf] at hp
            exact absurd hp (by simp)
          · exact Or.inr ⟨hm2, hp⟩

/-- C10: `Has` returns a set: a key present in the store appears in the
result exactly once even when repeated in the argument list, only
argument keys appear, and `Has` of no keys is the empty set, error-free. -/
theorem C10_has_set_semantics (t : Table) (keys : List Bytes) :
    ∃ s, KV.Has t keys = Except.ok s ∧
      s.Nodup ∧
      (∀ k, k ∈ s ↔ (k ∈ keys ∧ (findRow t (encodeKey k)).isSome)) ∧
      KV.Has t [] = Except.ok [] := by
  obtain ⟨h1, h2⟩ := hasTx_foldl t keys [] List.nodup_nil
  refine ⟨KV.hasTx keys t, rfl, h1, fun k => ?_, rfl⟩
  have := h2 k
  simpa [KV.hasTx] using this

/-! ### `list` ordering -/

theorem ltB_nil_right : ∀ k : Bytes, ltB k [] = false
  | [] => rfl
  | _ :: _ => rfl

theorem leB_nil_left (k : Bytes) : leB [] k = true := by
  simp [leB, ltB_nil_right]

theorem pairwise_lt_of_sorted_nodup : ∀ l : List Bytes, List.Pairwise KV.leP l →
    l.Nodup → l.Pairwise (fun a b => ltB a b = true)
  | [] , _, _ => .nil
  | a :: xs, hs, hn => by
    rw [List.pairwise_cons] at hs ⊢
    rw [List.nodup_cons] at hn
    refine ⟨fun b hb => ?_, pairwise_lt_of_sorted_nodup xs hs.2 hn.2⟩
    have hne : a ≠ b := fun he => hn.1 (he ▸ hb)
    exact (ltB_iff a b).mpr ⟨hs.1 b hb, hne⟩

theorem forall₂_exists_left {R : Bytes → Bytes → Prop} {l out : List Bytes}
    (h : List.Forall₂ R l out) : ∀ k ∈ out, ∃ e ∈ l, R e k := by
  induction h with
  | nil => intro k hk; exact absurd hk (List.not_mem_nil k)
  | cons hr _ ih =>
    intro k hk
    rcases List.mem_cons.mp hk with rfl | hk2
    · exact ⟨_, List.mem_cons_self _ _, hr⟩
    · obtain ⟨e, he, hre⟩ := ih k hk2
      exact ⟨e, List.mem_cons_of_mem _ he, hre⟩

theorem forall₂_exists_right {R : Bytes → Bytes → Prop} {l out : List Bytes}
    (h : List.Forall₂ R l out) : ∀ e ∈ l, ∃ k ∈ out, R e k := by
  induction h with
  | nil => intro e he; exact absurd he (List.not_mem_nil e)
  | cons hr _ ih =>
    intro e he
    rcases List.mem_cons.mp he with rfl | he2
    · exact ⟨_, List.mem_cons_self _ _, hr⟩
    · obtain ⟨k, hk, hre⟩ := ih e he2
      exact ⟨k, List.mem_cons_of_mem _ hk, hre⟩

/-- Decoding a run of well-formed encoded keys succeeds and relates each
code to its original key. -/
theorem decodeRows_spec : ∀ l : List Bytes,
    (∀ e ∈ l, ∃ k, ValidBytes k ∧ e = encodeKey k) →
    ∃ out, KV.decodeRows l = some out ∧
      List.Forall₂ (fun e k => ValidBytes k ∧ e = encodeKey k) l out
  | [] => fun _ => ⟨[], rfl, .nil⟩
  | e :: rest => by
    intro h
    obtain ⟨k, hk, he⟩ := h e (List.mem_cons_self _ _)
    obtain ⟨out, ho, hf⟩ :=
      decodeRows_spec rest (fun x hx => h x (List.mem_cons_of_mem _ hx))
    subst he
    refine ⟨k :: out, ?_, .cons ⟨hk, rfl⟩ hf⟩
    simp [KV.decodeRows, decodeKey_encodeKey k hk, ho]

theorem pairwise_lt_transfer : ∀ {l out : List Bytes},
    List.Forall₂ (fun e k => ValidBytes k ∧ e = encodeKey k) l out →
    l.Pairwise (fun a b => ltB a b = true) →
    out.Pairwise (fun a b => ltB a b = true) := by
  intro l out h
  induction h with
  | nil => intro _; exact .nil
  | cons hr htail ih =>
    intro hp
    rw [List.pairwise_cons] at hp ⊢
    refine ⟨fun k2 hk2 => ?_, ih hp.2⟩
    obtain ⟨e2, he2, hr2⟩ := forall₂_exists_left htail k2 hk2
    have := hp.1 e2 he2
    rw [hr.2, hr2.2, ltB_encodeKey _ _ hr.1 hr2.1] at this
    exact this

/-- Full characterization of `KV.list` on a well-formed table. -/
theorem list_spec_aux (t : Table) (start : Bytes) (hwf : WF t) (hs : ValidBytes start) :
    ∃ out, KV.list t start = some out ∧
      out.Pairwise (fun a b => ltB a b = true) ∧
      ∀ k, ValidBytes k →
        (k ∈ out ↔ (encodeKey k ∈ t.map Row.key ∧ leB start k = true)) := by
  have hnod0 : ((t.map Row.key).filter (fun ek => leB (encodeKey start) ek)).Nodup :=
    hwf.1.filter _
  have hperm := List.perm_insertionSort KV.leP
    ((t.map Row.key).filter (fun ek => leB (encodeKey start) ek))
  have hnod : (List.insertionSort KV.leP
      ((t.map Row.key).filter (fun ek => leB (encodeKey start) ek))).Nodup :=
    hperm.nodup_iff.mpr hnod0
  have hsort := List.sorted_insertionSort KV.leP
    ((t.map Row.key).filter (fun ek => leB (encodeKey start) ek))
  have hmeml : ∀ e, e ∈ List.insertionSort KV.leP
      ((t.map Row.key).filter (fun ek => leB (encodeKey start) ek)) ↔
      (e ∈ t.map Row.key ∧ leB (encodeKey start) e = true) := by
    intro e
    rw [hperm.mem_iff, List.mem_filter]
  have helem : ∀ e ∈ List.insertionSort KV.leP
      ((t.map Row.key).filter (fun ek => leB (encodeKey start) ek)),
      ∃ k, ValidBytes k ∧ e = encodeKey k := by
    intro e he
    obtain ⟨hmap, _⟩ := (hmeml e).mp he
    obtain ⟨r, hr, hre⟩ := List.mem_map.mp hmap
    obtain ⟨k, hk, hrk⟩ := hwf.2 r hr
    exact ⟨k, hk, hre ▸ hrk⟩
  obtain ⟨out, hdec, hf⟩ := decodeRows_spec _ helem
  have hstrict := pairwise_lt_transfer hf
    (pairwise_lt_of_sorted_nodup _ hsort hnod)
  refine ⟨out, hdec, hstrict, fun k hk => ?_⟩
  constructor
  · intro hko
    obtain ⟨e, he, hre⟩ := forall₂_exists_left hf k hko
    obtain ⟨hmap, hge⟩ := (hmeml e).mp he
    rw [hre.2] at hmap hge
    rw [leB_encodeKey start k hs hk] at hge
    exact ⟨hmap, hge⟩
  · rintro ⟨hmap, hge⟩
    have he : encodeKey k ∈ List.insertionSort KV.leP
        ((t.map Row.key).filter (fun ek => leB (encodeKey start) ek)) := by
      rw [hmeml]
      exact ⟨hmap, by rw [leB_encodeKey start k hs hk]; exact hge⟩
    obtain ⟨k2, hk2, hrk2⟩ := forall₂_exists_right hf (encodeKey k) he
    have : k = k2 := encodeKey_inj k k2 hk hrk2.1 hrk2.2
    exact this ▸ hk2

/-- C4: on a well-formed table, `List(start)` yields exactly the stored
keys at or after `start` in strictly ascending original-key byte order
(no duplicates, no omissions), and `List("")` yields all stored keys. -/
theorem C4_list_ordering (t : Table) (start : Bytes) (hwf : WF t)
    (hs : ValidBytes start) :
    (∃ out, KV.list t start = some out ∧
      out.Pairwise (fun a b => ltB a b = true) ∧
      ∀ k, ValidBytes k →
        (k ∈ out ↔ (encodeKey k ∈ t.map Row.key ∧ leB start k = true))) ∧
    (∃ outAll, KV.list t [] = some outAll ∧
      outAll.Pairwise (fun a b => ltB a b = true) ∧
      ∀ k, ValidBytes k → (k ∈ outAll ↔ encodeKey k ∈ t.map Row.key)) := by
  refine ⟨list_spec_aux t start hwf hs, ?_⟩
  obtain ⟨outAll, h1, h2, h3⟩ := list_spec_aux t [] hwf (by intro b hb; cases hb)
  exact ⟨outAll, h1, h2, fun k hk => by rw [h3 k hk, leB_nil_left]; simp⟩

/-- C4 witness: on a concrete two-row table, listing from the empty
start key succeeds and yields both stored keys. -/
theorem C4_list_ordering_witness :
    ∃ out, KV.list [⟨encodeKey [2], [0], 1⟩, ⟨encodeKey [1], [0], 1⟩] [] = some out ∧
      ([1] : Bytes) ∈ out ∧ ([2] : Bytes) ∈ out := by
  have hwf : WF [⟨encodeKey [2], [0], 1⟩, ⟨encodeKey [1], [0], 1⟩] := by
    refine ⟨by decide, ?_⟩
    intro r hr
    rcases List.mem_cons.mp hr with rfl | hr2
    · exact ⟨[2], by decide, rfl⟩
    · have := List.mem_singleton.mp hr2
      subst this
      exact ⟨[1], by decide, rfl⟩
  obtain ⟨outAll, h1, _, h3⟩ :=
    (C4_list_ordering _ [] hwf (by intro b hb; cases hb)).2
  refine ⟨outAll, h1, ?_, ?_⟩
  · rw [h3 [1] (by decide)]
    decide
  · rw [h3 [2] (by decide)]
    decide

end SqliteStore
